import Mathlib

/-!
Shallow embedding of the midi-rnn notebook's event codec, file filter,
corpus-pool scheduling and window extraction (`src/midi-rnn.ipynb`), with
theorems settling the frozen claims about them.

Conventions: a MIDI byte is a `Nat` (the source stores them in a uint8
array, and mido only ever yields values `0..255`); continuous scalars
(message times, numpy float arrays) are modelled as `ℚ`; numpy's `np.round`
(round half to even) is `nround`.
-/

namespace MidiRNN

/-- Round half to even on `ℚ`, the behaviour of `np.round` composed with
`int(...)` in `create_midi_track` (the argument of `int` is already integral
there, so `int` truncates nothing). -/
def nround (q : ℚ) : ℤ :=
  if q - ⌊q⌋ < 1/2 then ⌊q⌋
  else if 1/2 < q - ⌊q⌋ then ⌊q⌋ + 1
  else if 2 ∣ ⌊q⌋ then ⌊q⌋ else ⌊q⌋ + 1

/-- Arithmetic mean of a list of rationals: `np.mean` (the sum divided by the
length; `ℚ` division by zero is zero, matching that the source never takes
the mean of an empty buffer on the paths modelled here). -/
def listMean (l : List ℚ) : ℚ := l.sum / l.length

/-- One parsed MIDI message as `load_midi_file` sees it: its raw bytes
(`x.bytes()`) and its delta-time `x.time`. -/
structure Event where
  bytes : List ℕ
  time : ℚ
deriving Repr, DecidableEq

/-- One row of the `(-1, 5)` array `load_midi_file` builds before bit
unpacking: `cur[0]` the more-than-3-bytes flag, `cur[1..3]` the chunk's
bytes (0 when unused), `cur[4]` the number of valid bytes in the chunk. -/
structure Record where
  contFlag : ℕ
  byte0 : ℕ
  byte1 : ℕ
  byte2 : ℕ
  chunkLen : ℕ
deriving Repr, DecidableEq

/-- Consecutive chunks of at most three elements, as the byte loop of
`load_midi_file` emits them: a row is flushed when `(ind+1) % 3 == 0` or the
message's bytes end. -/
def chunks3 : List α → List (List α)
  | [] => []
  | [a] => [[a]]
  | [a, b] => [[a, b]]
  | a :: b :: c :: rest => [a, b, c] :: chunks3 rest

/-- The row `load_midi_file` emits for one chunk of a message of `len` bytes:
`cur[0] = 1` exactly when the whole message has more than three bytes,
`cur[4]` is the chunk's valid-byte count, unused byte slots stay zero. -/
def mkRecord (len : ℕ) (chunk : List ℕ) : Record :=
  { contFlag := if 3 < len then 1 else 0
    byte0 := chunk.getD 0 0
    byte1 := chunk.getD 1 0
    byte2 := chunk.getD 2 0
    chunkLen := chunk.length }

/-- The rows `load_midi_file` appends to `midi_data` for one message. -/
def encodeEvent (bs : List ℕ) : List Record :=
  (chunks3 bs).map (mkRecord bs.length)

/-- The rows of one message paired with the entries `load_midi_file` appends
to `midi_time`: every row of the message carries
`x.time * ticks_per_beat * 2`. -/
def encodeTimed (e : Event) (ticksPerBeat : ℚ) : List (Record × ℚ) :=
  (encodeEvent e.bytes).map (fun r => (r, e.time * ticksPerBeat * 2))

/-- The eight bits of one byte, most significant first: one row of
`np.unpackbits` on a uint8 array (its default big bit order). -/
def unpackByte (b : ℕ) : List ℕ :=
  [b / 128 % 2, b / 64 % 2, b / 32 % 2, b / 16 % 2, b / 8 % 2, b / 4 % 2,
   b / 2 % 2, b % 2]

/-- The 40-bit row `load_midi_file` returns for one record, after
`np.unpackbits(midi_data, axis=1)`. -/
def recordBits (r : Record) : List ℕ :=
  unpackByte r.contFlag ++ (unpackByte r.byte0 ++ (unpackByte r.byte1 ++
    (unpackByte r.byte2 ++ unpackByte r.chunkLen)))

/-- The bit-level rows of one message together with their times: the slice of
`load_midi_file`'s two outputs that belongs to one parsed message. -/
def encodeTimedBits (e : Event) (ticksPerBeat : ℚ) : List (List ℕ × ℚ) :=
  (encodeTimed e ticksPerBeat).map (fun p => (recordBits p.1, p.2))

/-- One byte of `np.packbits` over the first eight listed bits, nonzero
entries counting as set bits (numpy's thresholding). -/
def packbits8 (bits : List ℕ) : ℕ :=
  (bits.take 8).foldl (fun acc b => 2 * acc + if b = 0 then 0 else 1) 0

/-- Byte `i` of a packed 40-bit row: `msg_array[i]` after
`np.packbits(msg_array, axis=0)` in `create_midi_track`. -/
def rowByte (bits : List ℕ) (i : ℕ) : ℕ := packbits8 (bits.drop (8 * i))

/-- The valid bytes of a packed row, `msg_array[1 : 1 + min(3, msg_array[4])]`
in `create_midi_track`. -/
def rowBytes (bits : List ℕ) : List ℕ :=
  (List.range (min 3 (rowByte bits 4))).map (fun i => rowByte bits (1 + i))

/-- The aggregation state `create_midi_track` threads through its loop: the
byte aggregator, the per-byte time aggregator, and the messages appended to
the track so far (each as its bytes and its integer `msg.time`). -/
structure DecState where
  agg : List ℕ
  aggTimes : List ℚ
  out : List (List ℕ × ℤ)
deriving Repr, DecidableEq

/-- Append a message built by `Message.from_bytes(bs)` to the track, or skip
it when mido raises (`valid bs = false`): the try/except around
`track.append` in `create_midi_track`. -/
def emitMsg (valid : List ℕ → Bool) (bs : List ℕ) (t : ℤ)
    (out : List (List ℕ × ℤ)) : List (List ℕ × ℤ) :=
  if valid bs then out ++ [(bs, t)] else out

/-- One iteration of `create_midi_track`'s loop on a 40-bit row and its time:
a set continuation byte appends the row's valid bytes (and its time, once per
byte) to the aggregator; a clear one first flushes a non-empty aggregator
with `max(0, round(mean(times) * 10))` as time, then emits the row's own
bytes with `max(0, round(time * 10))`. -/
def createStep (valid : List ℕ → Bool) (st : DecState) (row : List ℕ × ℚ) :
    DecState :=
  let bits := row.1
  let t := row.2
  let bs := rowBytes bits
  if 0 < rowByte bits 0 then
    { st with
      agg := st.agg ++ bs
      aggTimes := st.aggTimes ++ List.replicate (min 3 (rowByte bits 4)) t }
  else
    let out1 :=
      if st.agg = [] then st.out
      else emitMsg valid st.agg (max 0 (nround (listMean st.aggTimes * 10))) st.out
    { agg := []
      aggTimes := []
      out := emitMsg valid bs (max 0 (nround (t * 10))) out1 }

/-- The track `create_midi_track` builds from the model's rows and times,
parameterised by mido's `Message.from_bytes` validity test. A trailing
non-empty aggregator is dropped, as in the source. -/
def create_midi_track (valid : List ℕ → Bool) (rows : List (List ℕ × ℚ)) :
    List (List ℕ × ℤ) :=
  (rows.foldl (createStep valid) ⟨[], [], []⟩).out

/-- Which of the three byte slots of a record a decoded byte index selects. -/
def recByteAt (r : Record) : ℕ → ℕ
  | 0 => r.byte0
  | 1 => r.byte1
  | _ => r.byte2

/-- The valid bytes a record contributes on decode, at the `Record` level:
`min(3, chunk_len)` bytes drawn from the byte slots in order. -/
def recBytes (r : Record) : List ℕ :=
  (List.range (min 3 r.chunkLen)).map (recByteAt r)

theorem nround_abs_sub_le (q : ℚ) : |(nround q : ℚ) - q| ≤ 1 / 2 := by
  have h0 : (⌊q⌋ : ℚ) ≤ q := Int.floor_le q
  have h1 : q < ⌊q⌋ + 1 := Int.lt_floor_add_one q
  unfold nround
  split_ifs <;> rw [abs_le] <;> constructor <;> push_cast <;> linarith

theorem nround_nonneg (q : ℚ) (hq : 0 ≤ q) : 0 ≤ nround q := by
  have h0 : (0 : ℤ) ≤ ⌊q⌋ := Int.floor_nonneg.mpr hq
  unfold nround
  split_ifs <;> omega

theorem ite_mod_two (m : ℕ) : (if m % 2 = 0 then 0 else 1) = m % 2 := by
  rcases Nat.mod_two_eq_zero_or_one m with h | h <;> simp [h]

theorem packbits8_unpackByte (v : ℕ) (hv : v < 256) :
    packbits8 (unpackByte v) = v := by
  rw [packbits8, show (unpackByte v).take 8 = unpackByte v from rfl]
  simp only [unpackByte, List.foldl_cons, List.foldl_nil, ite_mod_two]
  omega

theorem packbits8_unpackByte_append (v : ℕ) (hv : v < 256) (l : List ℕ) :
    packbits8 (unpackByte v ++ l) = v := by
  rw [packbits8, show (unpackByte v ++ l).take 8 = unpackByte v from rfl]
  simp only [unpackByte, List.foldl_cons, List.foldl_nil, ite_mod_two]
  omega

/-- Bounds on a record's five fields that make its 40-bit row decode back to
the same five bytes (the source stores them in a uint8 array). -/
def FieldsFit (r : Record) : Prop :=
  r.contFlag < 256 ∧ r.byte0 < 256 ∧ r.byte1 < 256 ∧ r.byte2 < 256 ∧
    r.chunkLen < 256

instance (r : Record) : Decidable (FieldsFit r) := by
  unfold FieldsFit; infer_instance

theorem rowByte_recordBits (r : Record) (h : FieldsFit r) :
    rowByte (recordBits r) 0 = r.contFlag ∧
    rowByte (recordBits r) 1 = r.byte0 ∧
    rowByte (recordBits r) 2 = r.byte1 ∧
    rowByte (recordBits r) 3 = r.byte2 ∧
    rowByte (recordBits r) 4 = r.chunkLen := by
  obtain ⟨h0, h1, h2, h3, h4⟩ := h
  have d0 : (recordBits r).drop (8 * 0) = unpackByte r.contFlag ++
      (unpackByte r.byte0 ++ (unpackByte r.byte1 ++ (unpackByte r.byte2 ++
        unpackByte r.chunkLen))) := rfl
  have d1 : (recordBits r).drop (8 * 1) = unpackByte r.byte0 ++
      (unpackByte r.byte1 ++ (unpackByte r.byte2 ++
        unpackByte r.chunkLen)) := rfl
  have d2 : (recordBits r).drop (8 * 2) = unpackByte r.byte1 ++
      (unpackByte r.byte2 ++ unpackByte r.chunkLen) := rfl
  have d3 : (recordBits r).drop (8 * 3) = unpackByte r.byte2 ++
      unpackByte r.chunkLen := rfl
  have d4 : (recordBits r).drop (8 * 4) = unpackByte r.chunkLen := rfl
  refine ⟨?_, ?_, ?_, ?_, ?_⟩ <;> rw [rowByte]
  · rw [d0, packbits8_unpackByte_append _ h0]
  · rw [d1, packbits8_unpackByte_append _ h1]
  · rw [d2, packbits8_unpackByte_append _ h2]
  · rw [d3, packbits8_unpackByte_append _ h3]
  · rw [d4, packbits8_unpackByte _ h4]

theorem rowBytes_recordBits (r : Record) (h : FieldsFit r) :
    rowBytes (recordBits r) = recBytes r := by
  obtain ⟨e0, e1, e2, e3, e4⟩ := rowByte_recordBits r h
  unfold rowBytes recBytes
  rw [e4]
  refine List.map_congr_left ?_
  intro i hi
  rw [List.mem_range] at hi
  have hi3 : i < 3 := lt_of_lt_of_le hi (min_le_left _ _)
  interval_cases i
  · simpa using e1
  · simpa using e2
  · simpa using e3

theorem chunks3_length (l : List α) :
    l ≠ [] → (chunks3 l).length = (l.length + 2) / 3 := by
  induction l using chunks3.induct with
  | case1 => intro h; cases h rfl
  | case2 a => intro _; simp [chunks3]
  | case3 a b => intro _; simp [chunks3]
  | case4 a b c rest ih =>
    intro _
    rcases eq_or_ne rest [] with hr | hr
    · subst hr; simp [chunks3]
    · simp only [chunks3, List.length_cons]
      rw [ih hr]
      omega

theorem chunks3_decomp (l : List α) :
    l ≠ [] → ∃ full lastC, chunks3 l = full ++ [lastC] ∧
      (∀ c ∈ full, c.length = 3) ∧
      lastC.length = l.length - 3 * ((l.length + 2) / 3 - 1) ∧
      1 ≤ lastC.length ∧ lastC.length ≤ 3 := by
  induction l using chunks3.induct with
  | case1 => intro h; cases h rfl
  | case2 a =>
    intro _
    exact ⟨[], [a], rfl, by simp, by simp [chunks3], by simp, by simp⟩
  | case3 a b =>
    intro _
    exact ⟨[], [a, b], rfl, by simp, by simp [chunks3], by simp, by simp⟩
  | case4 a b c rest ih =>
    intro _
    rcases eq_or_ne rest [] with hr | hr
    · subst hr
      exact ⟨[], [a, b, c], rfl, by simp, by simp [chunks3], by simp, by simp⟩
    · obtain ⟨full, lastC, heq, hfull, hlen, hge, hle⟩ := ih hr
      have hrl : 1 ≤ rest.length := List.length_pos.mpr hr
      refine ⟨[a, b, c] :: full, lastC, ?_, ?_, ?_, hge, hle⟩
      · simp [chunks3, heq]
      · intro x hx
        rcases List.mem_cons.mp hx with rfl | hx
        · rfl
        · exact hfull x hx
      · simp only [List.length_cons]
        omega

theorem chunks3_small (l : List α) (h1 : 1 ≤ l.length) (h3 : l.length ≤ 3) :
    chunks3 l = [l] := by
  rcases l with _ | ⟨a, _ | ⟨b, _ | ⟨c, _ | ⟨d, rest⟩⟩⟩⟩
  · simp at h1
  · rfl
  · rfl
  · rfl
  · simp only [List.length_cons] at h3; omega

theorem getD_lt_256 (bs : List ℕ) (h : ∀ b ∈ bs, b < 256) (i : ℕ) :
    bs.getD i 0 < 256 := by
  rcases lt_or_ge i bs.length with hi | hi
  · rw [List.getD_eq_getElem _ _ hi]
    exact h _ (List.getElem_mem hi)
  · rw [List.getD_eq_default _ _ hi]
    norm_num

/-- Claim C4, counterexample: encoding an event with zero bytes produces zero
records and raises nothing — in `load_midi_file` the per-byte loop body never
runs for an empty `x.bytes()`, so the event is silently skipped; no
`MalformedEvent` failure exists anywhere in the source. -/
theorem C4_zero_byte_cex : encodeTimed ⟨[], 0⟩ 1 = [] := rfl

/-- Claim C4, amended: for every event with zero bytes, encode silently
yields zero records (no error is reported), at any time and any
ticks-per-beat value. -/
theorem C4_zero_byte_silent_skip (t ticksPerBeat : ℚ) :
    encodeTimed ⟨[], t⟩ ticksPerBeat = [] := rfl

/-- Claim C3: an event of `L ≥ 1` bytes emits exactly `⌈L/3⌉ = (L+2)/3`
records; every emitted record's continuation flag is 1 iff `L > 3`;
`chunk_len` is 3 on every record but the last, whose `chunk_len` is
`L - 3*(⌈L/3⌉ - 1)`; and every record of the event carries the same stored
time, `delta_time * ticks_per_beat * 2`. -/
theorem C3_chunking (e : Event) (ticksPerBeat : ℚ)
    (hL : 1 ≤ e.bytes.length) :
    (encodeEvent e.bytes).length = (e.bytes.length + 2) / 3 ∧
    (∀ r ∈ encodeEvent e.bytes, (r.contFlag = 1 ↔ 3 < e.bytes.length)) ∧
    (∃ full lastR, encodeEvent e.bytes = full ++ [lastR] ∧
      (∀ r ∈ full, r.chunkLen = 3) ∧
      lastR.chunkLen = e.bytes.length - 3 * ((e.bytes.length + 2) / 3 - 1)) ∧
    (∀ x ∈ encodeTimed e ticksPerBeat, x.2 = e.time * ticksPerBeat * 2) := by
  have hne : e.bytes ≠ [] := by
    intro h
    rw [h] at hL
    simp at hL
  refine ⟨?_, ?_, ?_, ?_⟩
  · rw [encodeEvent, List.length_map]
    exact chunks3_length _ hne
  · intro r hr
    rw [encodeEvent, List.mem_map] at hr
    obtain ⟨c, _, rfl⟩ := hr
    simp only [mkRecord]
    split_ifs with h
    · simp [h]
    · simp [h]
  · obtain ⟨full, lastC, heq, hfull, hlen, _, _⟩ := chunks3_decomp e.bytes hne
    refine ⟨full.map (mkRecord e.bytes.length), mkRecord e.bytes.length lastC,
      ?_, ?_, ?_⟩
    · rw [encodeEvent, heq, List.map_append, List.map_singleton]
    · intro r hr
      rw [List.mem_map] at hr
      obtain ⟨c, hc, rfl⟩ := hr
      simp [mkRecord, hfull c hc]
    · simp [mkRecord, hlen]
  · intro x hx
    rw [encodeTimed, List.mem_map] at hx
    obtain ⟨r, _, rfl⟩ := hx
    rfl

/-- Claim C3, witness: the four-byte event `[0x90, 0x40, 0x64, 0x07]` at time
0 with `ticks_per_beat = 1` emits two records, both flagged, the first with
`chunk_len = 3` and the second with `chunk_len = 1`. -/
theorem C3_chunking_witness :
    1 ≤ [144, 64, 100, 7].length ∧
    ((encodeEvent [144, 64, 100, 7]).length = ([144, 64, 100, 7].length + 2) / 3 ∧
      (∀ r ∈ encodeEvent [144, 64, 100, 7],
        (r.contFlag = 1 ↔ 3 < [144, 64, 100, 7].length)) ∧
      (∃ full lastR, encodeEvent [144, 64, 100, 7] = full ++ [lastR] ∧
        (∀ r ∈ full, r.chunkLen = 3) ∧
        lastR.chunkLen =
          [144, 64, 100, 7].length - 3 * (([144, 64, 100, 7].length + 2) / 3 - 1)) ∧
      (∀ x ∈ encodeTimed ⟨[144, 64, 100, 7], 0⟩ 1, x.2 = 0 * 1 * 2)) :=
  ⟨by decide, C3_chunking ⟨[144, 64, 100, 7], 0⟩ 1 (by decide)⟩

theorem fieldsFit_mkRecord (len : ℕ) (bs : List ℕ) (hb : ∀ b ∈ bs, b < 256)
    (hc : bs.length < 256) : FieldsFit (mkRecord len bs) := by
  refine ⟨?_, getD_lt_256 bs hb 0, getD_lt_256 bs hb 1, getD_lt_256 bs hb 2, hc⟩
  unfold mkRecord
  dsimp only
  split_ifs <;> norm_num

theorem createStep_clear (valid : List ℕ → Bool) (st : DecState) (r : Record)
    (t : ℚ) (hf : FieldsFit r) (h0 : r.contFlag = 0) :
    createStep valid st (recordBits r, t) =
      ⟨[], [],
        emitMsg valid (recBytes r) (max 0 (nround (t * 10)))
          (if st.agg = [] then st.out
           else emitMsg valid st.agg
             (max 0 (nround (listMean st.aggTimes * 10))) st.out)⟩ := by
  obtain ⟨e0, _, _, _, _⟩ := rowByte_recordBits r hf
  simp only [createStep, e0, h0, rowBytes_recordBits r hf, lt_self_iff_false,
    if_false]

theorem createStep_cont (valid : List ℕ → Bool) (st : DecState) (r : Record)
    (t : ℚ) (hf : FieldsFit r) (h0 : 0 < r.contFlag) :
    createStep valid st (recordBits r, t) =
      ⟨st.agg ++ recBytes r,
        st.aggTimes ++ List.replicate (min 3 r.chunkLen) t, st.out⟩ := by
  obtain ⟨e0, _, _, _, e4⟩ := rowByte_recordBits r hf
  simp only [createStep, e0, e4, rowBytes_recordBits r hf, h0, if_true]

theorem recBytes_mkRecord_small (bs : List ℕ) (h1 : 1 ≤ bs.length)
    (h3 : bs.length ≤ 3) : recBytes (mkRecord bs.length bs) = bs := by
  rcases bs with _ | ⟨a, _ | ⟨b, _ | ⟨c, _ | ⟨d, rest⟩⟩⟩⟩
  · simp at h1
  · rfl
  · rfl
  · rfl
  · simp only [List.length_cons] at h3
    omega

/-- Claim C1: for an event of one to three MIDI bytes (all below 256, forming
a message mido accepts) at a non-negative time, decoding the single encoded
record with an empty aggregation buffer reproduces exactly one message with
the identical bytes, whose integer time is within rounding tolerance (1/2)
of the event's time in the codec's stored unit scaled by the decoder
(`delta_time * ticks_per_beat * 2 * 10`). -/
theorem C1_round_trip (valid : List ℕ → Bool) (e : Event) (ticksPerBeat : ℚ)
    (h1 : 1 ≤ e.bytes.length) (h3 : e.bytes.length ≤ 3)
    (hb : ∀ b ∈ e.bytes, b < 256) (hv : valid e.bytes = true)
    (ht : 0 ≤ e.time) (htpb : 0 ≤ ticksPerBeat) :
    ∃ t : ℤ, create_midi_track valid (encodeTimedBits e ticksPerBeat) =
        [(e.bytes, t)] ∧
      |(t : ℚ) - e.time * ticksPerBeat * 2 * 10| ≤ 1 / 2 := by
  have henc : encodeEvent e.bytes = [mkRecord e.bytes.length e.bytes] := by
    rw [encodeEvent, chunks3_small e.bytes h1 h3]
    rfl
  have hflag : (mkRecord e.bytes.length e.bytes).contFlag = 0 := by
    unfold mkRecord
    dsimp only
    rw [if_neg (by omega)]
  have hfit : FieldsFit (mkRecord e.bytes.length e.bytes) :=
    fieldsFit_mkRecord e.bytes.length e.bytes hb (by omega)
  have hrows : encodeTimedBits e ticksPerBeat =
      [(recordBits (mkRecord e.bytes.length e.bytes),
        e.time * ticksPerBeat * 2)] := by
    rw [encodeTimedBits, encodeTimed, henc]
    rfl
  have hTnn : 0 ≤ e.time * ticksPerBeat * 2 * 10 :=
    mul_nonneg (mul_nonneg (mul_nonneg ht htpb) (by norm_num)) (by norm_num)
  refine ⟨max 0 (nround (e.time * ticksPerBeat * 2 * 10)), ?_, ?_⟩
  · rw [hrows, create_midi_track, List.foldl_cons, List.foldl_nil,
      createStep_clear valid _ _ _ hfit hflag]
    simp only [if_pos rfl]
    rw [recBytes_mkRecord_small e.bytes h1 h3, emitMsg, if_pos hv]
    rfl
  · rw [max_eq_right (nround_nonneg _ hTnn)]
    exact nround_abs_sub_le _

/-- Claim C1, witness: the spec's example, the note-on message
`[0x90, 0x40, 0x64]` at time 0, round-trips to itself. -/
theorem C1_round_trip_witness :
    (1 ≤ [144, 64, 100].length ∧ [144, 64, 100].length ≤ 3 ∧
      (∀ b ∈ [144, 64, 100], b < 256)) ∧
    ∃ t : ℤ, create_midi_track (fun _ => true)
        (encodeTimedBits ⟨[144, 64, 100], 0⟩ 1) = [([144, 64, 100], t)] ∧
      |(t : ℚ) - 0 * 1 * 2 * 10| ≤ 1 / 2 :=
  ⟨⟨by decide, by decide, by decide⟩,
    C1_round_trip (fun _ => true) ⟨[144, 64, 100], 0⟩ 1 (by decide) (by decide)
      (by decide) rfl le_rfl (by norm_num)⟩

theorem listMean_nonneg (l : List ℚ) (h : ∀ x ∈ l, 0 ≤ x) : 0 ≤ listMean l :=
  div_nonneg (List.sum_nonneg h) (Nat.cast_nonneg _)

theorem recBytes_ne_nil (r : Record) (h : 1 ≤ r.chunkLen) :
    recBytes r ≠ [] := by
  apply List.ne_nil_of_length_pos
  rw [recBytes, List.length_map, List.length_range]
  omega

/-- Claim C2: on a record with a clear continuation flag, one decode step
first flushes a non-empty aggregation buffer as one message built from the
buffered bytes in arrival order with time `round(mean(buffered times) * 10)`
and clears both buffers, then emits a second, independent message from the
record's own `min(3, chunk_len)` bytes with time `round(time * 10)`; in
particular two continuation records followed by one non-continuation record
decode to exactly two messages. -/
theorem C2_decode_flush (valid : List ℕ → Bool) (st : DecState) (r0 : Record)
    (t : ℚ) (r1 r2 r3 : Record) (t1 t2 t3 : ℚ)
    (hf0 : FieldsFit r0) (h00 : r0.contFlag = 0) (hagg : st.agg ≠ [])
    (hmean : 0 ≤ listMean st.aggTimes) (ht0 : 0 ≤ t)
    (hv0 : valid st.agg = true) (hw0 : valid (recBytes r0) = true)
    (hf1 : FieldsFit r1) (hf2 : FieldsFit r2) (hf3 : FieldsFit r3)
    (hc1 : 0 < r1.contFlag) (hc2 : 0 < r2.contFlag) (hc3 : r3.contFlag = 0)
    (hn1 : 1 ≤ r1.chunkLen)
    (hv12 : valid (recBytes r1 ++ recBytes r2) = true)
    (hv3 : valid (recBytes r3) = true)
    (ht1 : 0 ≤ t1) (ht2 : 0 ≤ t2) (ht3 : 0 ≤ t3) :
    createStep valid st (recordBits r0, t) =
      ⟨[], [], st.out ++ [(st.agg, nround (listMean st.aggTimes * 10)),
        (recBytes r0, nround (t * 10))]⟩ ∧
    create_midi_track valid
        [(recordBits r1, t1), (recordBits r2, t2), (recordBits r3, t3)] =
      [(recBytes r1 ++ recBytes r2,
        nround (listMean (List.replicate (min 3 r1.chunkLen) t1 ++
          List.replicate (min 3 r2.chunkLen) t2) * 10)),
       (recBytes r3, nround (t3 * 10))] := by
  constructor
  · rw [createStep_clear valid st r0 t hf0 h00, if_neg hagg]
    have hm1 : max (0 : ℤ) (nround (listMean st.aggTimes * 10)) =
        nround (listMean st.aggTimes * 10) :=
      max_eq_right (nround_nonneg _ (mul_nonneg hmean (by norm_num)))
    have hm2 : max (0 : ℤ) (nround (t * 10)) = nround (t * 10) :=
      max_eq_right (nround_nonneg _ (mul_nonneg ht0 (by norm_num)))
    simp [emitMsg, hv0, hw0, hm1, hm2]
  · have hmean12 : 0 ≤ listMean (List.replicate (min 3 r1.chunkLen) t1 ++
        List.replicate (min 3 r2.chunkLen) t2) := by
      apply listMean_nonneg
      intro x hx
      rcases List.mem_append.mp hx with hx | hx
      · rw [List.eq_of_mem_replicate hx]; exact ht1
      · rw [List.eq_of_mem_replicate hx]; exact ht2
    have hagg12 : recBytes r1 ++ recBytes r2 ≠ [] := by
      intro h
      exact recBytes_ne_nil r1 hn1 (List.append_eq_nil.mp h).1
    have hm3 : max (0 : ℤ)
        (nround (listMean (List.replicate (min 3 r1.chunkLen) t1 ++
          List.replicate (min 3 r2.chunkLen) t2) * 10)) =
        nround (listMean (List.replicate (min 3 r1.chunkLen) t1 ++
          List.replicate (min 3 r2.chunkLen) t2) * 10) :=
      max_eq_right (nround_nonneg _ (mul_nonneg hmean12 (by norm_num)))
    have hm4 : max (0 : ℤ) (nround (t3 * 10)) = nround (t3 * 10) :=
      max_eq_right (nround_nonneg _ (mul_nonneg ht3 (by norm_num)))
    rw [create_midi_track, List.foldl_cons,
      createStep_cont valid _ r1 t1 hf1 hc1, List.foldl_cons,
      createStep_cont valid _ r2 t2 hf2 hc2, List.foldl_cons,
      createStep_clear valid _ r3 t3 hf3 hc3, List.foldl_nil]
    simp only [List.nil_append]
    simp [emitMsg, hv12, hv3, hagg12, hm3, hm4]

/-- Claim C2, witness: with an aggregator holding byte 8 at time 1, a clear
record emits the flush and its own message; and the two flagged records
`[1,2,3]`/`[4,5,6]` followed by the clear record `[9,10,11]` decode to
exactly those two messages. -/
theorem C2_decode_flush_witness :
    createStep (fun _ => true) ⟨[8], [1], []⟩
        (recordBits ⟨0, 7, 0, 0, 1⟩, 0) =
      ⟨[], [], [] ++ [([8], nround (listMean [1] * 10)),
        (recBytes ⟨0, 7, 0, 0, 1⟩, nround (0 * 10))]⟩ ∧
    create_midi_track (fun _ => true)
        [(recordBits ⟨1, 1, 2, 3, 3⟩, 1), (recordBits ⟨1, 4, 5, 6, 3⟩, 1),
         (recordBits ⟨0, 9, 10, 11, 3⟩, 2)] =
      [(recBytes ⟨1, 1, 2, 3, 3⟩ ++ recBytes ⟨1, 4, 5, 6, 3⟩,
        nround (listMean (List.replicate (min 3 3) 1 ++
          List.replicate (min 3 3) 1) * 10)),
       (recBytes ⟨0, 9, 10, 11, 3⟩, nround (2 * 10))] :=
  C2_decode_flush (fun _ => true) ⟨[8], [1], []⟩ ⟨0, 7, 0, 0, 1⟩ 0
    ⟨1, 1, 2, 3, 3⟩ ⟨1, 4, 5, 6, 3⟩ ⟨0, 9, 10, 11, 3⟩ 1 1 2
    (by decide) rfl (by decide) (by norm_num [listMean]) le_rfl rfl rfl
    (by decide) (by decide) (by decide) (by decide) (by decide) rfl
    (by decide) rfl rfl (by norm_num) (by norm_num) (by norm_num)

/-- Metadata of a successfully opened MIDI file: the `type` attribute that
`mido.MidiFile(filename).type` exposes (0 = single-track delta-time). -/
structure MidiFileMeta where
  type : ℕ
deriving Repr, DecidableEq

/-- The `is_midi_0` utility: open and parse the file (abstracted as `parse`,
which either returns the file's metadata or raises some exception `ε`);
return whether the type is 0, and return `False` on any exception — the
try/except wrapping the whole body in the source. -/
def is_midi_0 (parse : π → Except ε MidiFileMeta) (path : π) : Bool :=
  match parse path with
  | .ok m => m.type == 0
  | .error _ => false

/-- Claim C9: for every path — unreadable and malformed files included —
`is_midi_0` returns a boolean that is true exactly when the file parses
successfully with `format_kind == 0`; every parse error is swallowed into
`false` and nothing propagates to the caller (the model is a total function
into `Bool`: the except-all clause leaves no raising path). -/
theorem C9_is_midi_0_total_filter {π ε : Type} (parse : π → Except ε MidiFileMeta)
    (path : π) :
    is_midi_0 parse path = true ↔
      ∃ m, parse path = Except.ok m ∧ m.type = 0 := by
  cases h : parse path with
  | ok m => simp [is_midi_0, h]
  | error e => simp [is_midi_0, h]

/-- Cursor advance of one committed training step:
`p_list[current_file] += seq_length`. -/
def commitCursor (p seqLen : ℕ) : ℕ := p + seqLen

/-- Number of windows served from a stream of `n` records before the
training loop's exhaustion test `p + seq_length + 1 > n` trips and the
cursor is reset (rotation ignored): serve while the test fails, advancing
the cursor with `commitCursor` after each window. `fuel` bounds the
recursion; from cursor 0, `fuel = n` always suffices. -/
def serveCount (n seqLen : ℕ) : ℕ → ℕ → ℕ
  | _, 0 => 0
  | p, fuel + 1 =>
    if p + seqLen + 1 > n then 0
    else 1 + serveCount n seqLen (commitCursor p seqLen) fuel

theorem serveCount_eq (n S : ℕ) (hS : 1 ≤ S) :
    ∀ fuel p, n ≤ p + fuel → serveCount n S p fuel = (n - 1 - p) / S := by
  intro fuel
  induction fuel with
  | zero =>
    intro p hp
    have h0 : n - 1 - p = 0 := by omega
    simp [serveCount, h0]
  | succ fuel ih =>
    intro p hp
    rw [serveCount]
    split_ifs with h
    · rw [Nat.div_eq_of_lt (by omega)]
    · rw [show commitCursor p S = p + S from rfl, ih (p + S) (by omega)]
      have hsub : n - 1 - (p + S) = n - 1 - p - S := by omega
      have hle : S ≤ n - 1 - p := by omega
      rw [hsub, Nat.div_eq_sub_div (by omega) hle]
      omega

/-- Claim C7: with window size `S ≥ 1` and stream length `n ≥ S + 1`, the
cursor advances by exactly `S` per committed window (`commitCursor`), and
the number of windows served from the stream before the exhaustion test
trips is exactly `⌊(n-1)/S⌋`. -/
theorem C7_cursor_exhaustion (n S : ℕ) (hS : 1 ≤ S) (hN : S + 1 ≤ n) :
    serveCount n S 0 n = (n - 1) / S := by
  rw [serveCount_eq n S hS n 0 (by omega), Nat.sub_zero]

/-- Claim C7, witness: a stream of 10 records with `seq_len = 3` serves
exactly `⌊9/3⌋ = 3` windows (at cursors 0, 3 and 6) before exhaustion. -/
theorem C7_cursor_exhaustion_witness :
    (1 ≤ 3 ∧ 3 + 1 ≤ 10) ∧ serveCount 10 3 0 10 = (10 - 1) / 3 :=
  ⟨⟨by decide, by decide⟩, C7_cursor_exhaustion 10 3 (by decide) (by decide)⟩

/-- The eviction slice of the training loop: each parallel pool list `l` is
replaced by the python slice `l[1:max_midi_files_in_memory]`, i.e. the
elements at indices `1 .. max_midi_files_in_memory - 1`. -/
def evictSlice (l : List α) (maxResident : ℕ) : List α :=
  (l.drop 1).take (maxResident - 1)

/-- The eviction step guarded by its trigger,
`len(midis_array) > max_midi_files_in_memory`. -/
def evictIfOver (l : List α) (maxResident : ℕ) : List α :=
  if maxResident < l.length then evictSlice l maxResident else l

set_option maxRecDepth 4000 in
/-- Claim C5, evaluation at the failing input: a pool of 501 streams with
`max_midi_files_in_memory = 500` is cut to 499 streams — the slice
`[1:500]` drops the newest stream (id 500) as well as the oldest (id 0), so
eviction does not remove only the single oldest stream, and the survivors
are not the most recently admitted ones. -/
theorem C5_eviction_drops_newest :
    (evictIfOver (List.range 501) 500).length = 499 ∧
    500 ∈ List.range 501 ∧
    500 ∉ evictIfOver (List.range 501) 500 ∧
    0 ∉ evictIfOver (List.range 501) 500 := by decide

/-- A python runtime error escaping the training loop. -/
inductive PyErr where
  | nameError : PyErr
deriving Repr, DecidableEq

/-- The candidate-selection `while` loop of the rotation branch.
`loadedFiles` models the `loaded_files` variable — `none` when the name was
never assigned, which is its state everywhere in the notebook (no cell ever
initialises it); `compat c` models `is_midi_0(file_list[c])` together with a
successful `mido.MidiFile` load inside the try (a load exception is caught
and leaves `file_loaded` untouched); `choices i` is the random `file_choice`
drawn by the `i`-th execution of the loop body; `fileLoaded` and
`lastChoice` are `file_loaded` and `file_choice` as the loop test is
evaluated; `fuel` bounds the unbounded python loop, with `.ok none` standing
for a loop still running when fuel runs out. Evaluating
`file_choice in loaded_files` with `loaded_files` unassigned raises
`NameError`, and the test reaches that operand exactly when `file_loaded`
is true. -/
def selectLoop (compat : ℕ → Bool) (choices : ℕ → ℕ)
    (loadedFiles : Option (List ℕ)) :
    ℕ → ℕ → Bool → ℕ → Except PyErr (Option ℕ)
  | 0, _, _, _ => .ok none
  | fuel + 1, i, fileLoaded, lastChoice =>
    if fileLoaded = false then
      selectLoop compat choices loadedFiles fuel (i + 1)
        (compat (choices i)) (choices i)
    else
      match loadedFiles with
      | none => .error .nameError
      | some l =>
        if lastChoice ∈ l then
          selectLoop compat choices loadedFiles fuel (i + 1)
            (fileLoaded || compat (choices i)) (choices i)
        else
          .ok (some lastChoice)

/-- Claim C6, evaluation at the failing input: with `loaded_files` never
initialised (its state in the whole notebook), the rotation's selection
loop can never exit with an admitted candidate — any run either loops on
(fuel exhausted, no compatible candidate found yet) or raises `NameError`
the moment a candidate loads successfully; in particular with every
candidate compatible it raises `NameError` at once, before any of the
admission appends runs. -/
theorem C6_rotation_never_admits (compat : ℕ → Bool) (choices : ℕ → ℕ) :
    (∀ fuel i fileLoaded lastChoice c,
      selectLoop compat choices none fuel i fileLoaded lastChoice ≠
        Except.ok (some c)) ∧
    selectLoop (fun _ => true) (fun _ => 0) none 2 0 false 0 =
      Except.error PyErr.nameError := by
  constructor
  · intro fuel
    induction fuel with
    | zero =>
      intro i fl lc c h
      simp [selectLoop] at h
    | succ fuel ih =>
      intro i fl lc c
      cases fl
      · simpa [selectLoop] using ih (i + 1) (compat (choices i)) (choices i) c
      · simp [selectLoop]
  · rfl

/-- The pool's backing store as `extract_samples` sees it: the per-file
record arrays `midis_array` (each row the 40 scalars of one record) and time
arrays `midi_times_array` (each row the single scalar of the `(seq, 1)`
reshape). -/
structure PoolState where
  midis : List (List (List ℚ))
  times : List (List (List ℚ))
deriving Repr, DecidableEq

/-- A numpy array value as `extract_samples` manipulates one: its rows, and
— when it is a basic-slice view into the store — which stored array
(`false` = records, `true` = times), which file and which starting row it
aliases. `astype` and `np.maximum` allocate fresh buffers (`viewOf = none`);
basic slicing yields views. -/
structure NpArr where
  data : List (List ℚ)
  viewOf : Option (Bool × ℕ × ℕ)
deriving Repr, DecidableEq

/-- The stored array `midis_array[cf]` or `midi_times_array[cf]`. -/
def storeArr (st : PoolState) (isTime : Bool) (cf : ℕ) : List (List ℚ) :=
  (if isTime then st.times else st.midis).getD cf []

/-- Replace the stored array of one file. -/
def storePut (st : PoolState) (isTime : Bool) (cf : ℕ)
    (arr : List (List ℚ)) : PoolState :=
  if isTime then { st with times := st.times.set cf arr }
  else { st with midis := st.midis.set cf arr }

/-- Overwrite rows `start, start + 1, …` of `base` with the rows of
`rows` — what a write through a row-slice view does to its backing array. -/
def writeRows (base : List (List ℚ)) (start : ℕ) (rows : List (List ℚ)) :
    List (List ℚ) :=
  rows.enum.foldl (fun b ir => b.set (start + ir.1) ir.2) base

/-- Basic slicing `arr[p : p + len]`: a view into the store. -/
def sliceView (st : PoolState) (isTime : Bool) (cf p len : ℕ) : NpArr :=
  { data := ((storeArr st isTime cf).drop p).take len
    viewOf := some (isTime, cf, p) }

/-- `astype(np.float32)` copies: the result owns its buffer. -/
def astype (a : NpArr) : NpArr := { a with viewOf := none }

/-- An in-place write of `newData` into `a` (python `+=`, indexed
assignment): when `a` is a view, the write also lands in the backing
store. -/
def npWrite (st : PoolState) (a : NpArr) (newData : List (List ℚ)) :
    PoolState × NpArr :=
  match a.viewOf with
  | none => (st, { a with data := newData })
  | some (isTime, cf, start) =>
    (storePut st isTime cf (writeRows (storeArr st isTime cf) start newData),
     { a with data := newData })

/-- In-place `a += noise` over aligned rows. -/
def iaddNoise (st : PoolState) (a : NpArr) (noise : List (List ℚ)) :
    PoolState × NpArr :=
  npWrite st a (List.zipWith (List.zipWith (· + ·)) a.data noise)

/-- `np.maximum(0, a)`: a fresh array with every scalar clamped to `≥ 0`. -/
def clamp0 (a : NpArr) : NpArr :=
  { data := a.data.map (fun row => row.map (fun x => max 0 x))
    viewOf := none }

/-- In-place `a[i] = np.zeros((1, width))`. -/
def setRowZero (st : PoolState) (a : NpArr) (i width : ℕ) :
    PoolState × NpArr :=
  npWrite st a (a.data.set i (List.replicate width 0))

/-- Read an array's contents at return time: a view reads through the
(possibly updated) store; an owned buffer reads its own data. -/
def readArr (st : PoolState) (a : NpArr) : List (List ℚ) :=
  match a.viewOf with
  | none => a.data
  | some (isTime, cf, start) =>
    ((storeArr st isTime cf).drop start).take a.data.length

/-- The `extract_samples` utility with its random draws passed explicitly
(the two `np.random.normal` matrices and the zeroed `random_int`). Line by
line from the source: the input slices are `astype` copies and the target
slices plain views; noise is added in place to the inputs; the clamps
rebind the input names to fresh `np.maximum` arrays; then one input record
row and one input time row are zeroed in place. Returns the final store,
the two augmented input arrays and the two target arrays as read at return
time. -/
def extract_samples (st : PoolState) (currentFile p seqLen : ℕ)
    (noiseR noiseT : List (List ℚ)) (randomInt : ℕ) :
    PoolState × List (List ℚ) × List (List ℚ) × List (List ℚ) ×
      List (List ℚ) :=
  let inputMidi0 := astype (sliceView st false currentFile p seqLen)
  let inputTime0 := astype (sliceView st true currentFile p seqLen)
  let targetMidi := sliceView st false currentFile (p + 1) seqLen
  let targetTime := sliceView st true currentFile (p + 1) seqLen
  let s1 := iaddNoise st inputMidi0 noiseR
  let s2 := iaddNoise s1.1 inputTime0 noiseT
  let inputMidi1 := clamp0 s1.2
  let inputTime1 := clamp0 s2.2
  let s3 := setRowZero s2.1 inputMidi1 randomInt (5 * 8)
  let s4 := setRowZero s3.1 inputTime1 randomInt 1
  (s4.1, s3.2.data, s4.2.data, readArr s4.1 targetMidi, readArr s4.1 targetTime)

/-- Claim C10: `extract_samples` never changes the pool's stored record and
time arrays — the input slices are detached copies (`astype`) before any
in-place mutation, and the target slices, though views, are only read; the
targets read back at return time are exactly the original stored slices. -/
theorem C10_extract_frame (st : PoolState) (currentFile p seqLen : ℕ)
    (noiseR noiseT : List (List ℚ)) (randomInt : ℕ) :
    (extract_samples st currentFile p seqLen noiseR noiseT randomInt).1 = st ∧
    (extract_samples st currentFile p seqLen noiseR noiseT randomInt).2.2.2.1 =
      ((storeArr st false currentFile).drop (p + 1)).take seqLen ∧
    (extract_samples st currentFile p seqLen noiseR noiseT randomInt).2.2.2.2 =
      ((storeArr st true currentFile).drop (p + 1)).take seqLen := by
  refine ⟨rfl, ?_, ?_⟩ <;>
    · show ((storeArr st _ currentFile).drop (p + 1)).take
          (((storeArr st _ currentFile).drop (p + 1)).take seqLen).length = _
      rw [List.length_take]
      exact List.take_eq_take.mpr (by rw [min_assoc, min_self])

/-- The property counted by the augmentation claim: at timestep `t` of a
returned window, the entire input record row and the input time row are
zero. -/
def zeroTimestep (midiRows timeRows : List (List ℚ)) (t : ℕ) : Prop :=
  (∀ x ∈ midiRows.getD t [], x = 0) ∧ (∀ x ∈ timeRows.getD t [], x = 0)

instance (midiRows timeRows : List (List ℚ)) (t : ℕ) :
    Decidable (zeroTimestep midiRows timeRows t) := by
  unfold zeroTimestep
  infer_instance

/-- A two-timestep window drawn from a store of all-ones records at times 1,
with additive noise −1 on every input scalar and zeroed timestep index 0. -/
def c8Window : PoolState × List (List ℚ) × List (List ℚ) × List (List ℚ) ×
    List (List ℚ) :=
  extract_samples
    ⟨[[List.replicate 40 1, List.replicate 40 1, List.replicate 40 1]],
     [[[1], [1], [1]]]⟩ 0 0 2
    [List.replicate 40 (-1), List.replicate 40 (-1)] [[-1], [-1]] 0

/-- Claim C8, counterexample: noise is unbounded, so a draw of −1 on every
input scalar zeroes both timesteps of this two-step window after
clamping — the returned window has two timesteps at which input record and
input time are zero, not exactly one. -/
theorem C8_augmentation_cex :
    zeroTimestep c8Window.2.1 c8Window.2.2.1 0 ∧
    zeroTimestep c8Window.2.1 c8Window.2.2.1 1 := by
  have hM : c8Window.2.1 = [List.replicate 40 0, List.replicate 40 0] := by
    show ((List.zipWith (List.zipWith (· + ·))
        [List.replicate 40 (1 : ℚ), List.replicate 40 1]
        [List.replicate 40 (-1), List.replicate 40 (-1)]).map
        (fun row => row.map (fun x => max 0 x))).set 0
        (List.replicate (5 * 8) 0) = _
    simp only [List.zipWith_cons_cons, List.zipWith_nil_left,
      List.zipWith_replicate, List.map_cons, List.map_nil,
      List.map_replicate, List.set_cons_zero]
    norm_num
  have hT : c8Window.2.2.1 = [[0], [0]] := by
    show ((List.zipWith (List.zipWith (· + ·)) [[(1 : ℚ)], [1]]
        [[-1], [-1]]).map (fun row => row.map (fun x => max 0 x))).set 0
        (List.replicate 1 0) = _
    simp only [List.zipWith_cons_cons, List.zipWith_nil_left,
      List.map_cons, List.map_nil, List.set_cons_zero]
    norm_num
  rw [zeroTimestep, zeroTimestep, hM, hT]
  refine ⟨⟨?_, ?_⟩, ?_, ?_⟩ <;> intro x hx <;>
    simp only [List.getD_cons_zero, List.getD_cons_succ,
      List.mem_replicate, List.mem_singleton] at hx
  · exact hx.2
  · exact hx
  · exact hx.2
  · exact hx

theorem mem_set_replicate_getD (l : List (List ℚ)) (i w : ℕ) (x : ℚ)
    (hx : x ∈ (l.set i (List.replicate w 0)).getD i []) : x = 0 := by
  rcases lt_or_ge i l.length with hi | hi
  · have hi2 : i < (l.set i (List.replicate w 0)).length := by simpa using hi
    rw [List.getD_eq_getElem _ _ hi2, List.getElem_set_self hi2] at hx
    exact List.eq_of_mem_replicate hx
  · have hi2 : (l.set i (List.replicate w 0)).length ≤ i := by simpa using hi
    rw [List.getD_eq_default _ _ hi2] at hx
    simp at hx

/-- Claim C8, amended: the uniformly chosen timestep of a returned window
always has its entire input record and input time forced to zero, and the
targets are never augmented (they are the unmodified stored slices); a
timestep other than the chosen one is all-zero exactly in the degenerate
event that the noise drives every one of its input record scalars to `≤ 0`,
so the window has exactly one zero timestep provided each other timestep
keeps some record scalar positive after noise — but not unconditionally, as
the counterexample shows. -/
theorem C8_augmentation (st : PoolState) (currentFile p seqLen : ℕ)
    (noiseR noiseT : List (List ℚ)) (randomInt : ℕ)
    (hri : randomInt < seqLen)
    (hrows : p + seqLen ≤ (storeArr st false currentFile).length)
    (hnR : noiseR.length = seqLen)
    (hwid : ∀ row ∈ storeArr st false currentFile, row.length = 40)
    (hwn : ∀ row ∈ noiseR, row.length = 40)
    (hsurv : ∀ t, t < seqLen → t ≠ randomInt → ∃ j, j < 40 ∧
      0 < ((((storeArr st false currentFile).drop p).take seqLen).getD t
            []).getD j 0 + (noiseR.getD t []).getD j 0) :
    ((extract_samples st currentFile p seqLen noiseR noiseT
        randomInt).2.2.2.1 =
      ((storeArr st false currentFile).drop (p + 1)).take seqLen ∧
     (extract_samples st currentFile p seqLen noiseR noiseT
        randomInt).2.2.2.2 =
      ((storeArr st true currentFile).drop (p + 1)).take seqLen) ∧
    ∀ t, t < seqLen →
      (zeroTimestep
        (extract_samples st currentFile p seqLen noiseR noiseT randomInt).2.1
        (extract_samples st currentFile p seqLen noiseR noiseT
          randomInt).2.2.1 t ↔ t = randomInt) := by
  have hM : (extract_samples st currentFile p seqLen noiseR noiseT
      randomInt).2.1 =
      ((List.zipWith (List.zipWith (· + ·))
          (((storeArr st false currentFile).drop p).take seqLen) noiseR).map
        (fun row => row.map (fun x => max 0 x))).set randomInt
        (List.replicate (5 * 8) 0) := rfl
  have hT : (extract_samples st currentFile p seqLen noiseR noiseT
      randomInt).2.2.1 =
      ((List.zipWith (List.zipWith (· + ·))
          (((storeArr st true currentFile).drop p).take seqLen) noiseT).map
        (fun row => row.map (fun x => max 0 x))).set randomInt
        (List.replicate 1 0) := rfl
  constructor
  · constructor <;>
      · show ((storeArr st _ currentFile).drop (p + 1)).take
            (((storeArr st _ currentFile).drop (p + 1)).take seqLen).length = _
        rw [List.length_take]
        exact List.take_eq_take.mpr (by rw [min_assoc, min_self])
  · intro t ht
    constructor
    · intro hz
      by_contra hne
      obtain ⟨j, hj40, hpos⟩ := hsurv t ht hne
      have hAlen : (((storeArr st false currentFile).drop p).take
          seqLen).length = seqLen := by
        rw [List.length_take, List.length_drop]
        omega
      have hZlen : (List.zipWith (List.zipWith (· + ·))
          (((storeArr st false currentFile).drop p).take seqLen)
          noiseR).length = seqLen := by
        rw [List.length_zipWith, hAlen, hnR, min_self]
      have htZ : t < (List.zipWith (List.zipWith (· + ·))
          (((storeArr st false currentFile).drop p).take seqLen)
          noiseR).length := by omega
      have htMap : t < ((List.zipWith (List.zipWith (· + ·))
          (((storeArr st false currentFile).drop p).take seqLen)
          noiseR).map (fun row => row.map (fun x => max 0 x))).length := by
        rw [List.length_map]
        omega
      have htSet : t < (((List.zipWith (List.zipWith (· + ·))
          (((storeArr st false currentFile).drop p).take seqLen)
          noiseR).map (fun row => row.map (fun x => max 0 x))).set randomInt
          (List.replicate (5 * 8) 0)).length := by
        rw [List.length_set]
        exact htMap
      have hz1 := hz.1
      rw [hM, List.getD_eq_getElem _ _ htSet] at hz1
      rw [List.getElem_set_ne (fun h => hne h.symm) htSet] at hz1
      simp only [List.getElem_map] at hz1
      have htA : t < (((storeArr st false currentFile).drop p).take
          seqLen).length := by omega
      have htN : t < noiseR.length := by omega
      have hzp : (List.zipWith (List.zipWith (· + ·))
          (((storeArr st false currentFile).drop p).take seqLen)
          noiseR)[t] = List.zipWith (· + ·)
            ((((storeArr st false currentFile).drop p).take seqLen)[t])
            (noiseR[t]) := List.getElem_zipWith
      rw [hzp] at hz1
      have hpt : p + t < (storeArr st false currentFile).length := by omega
      have hAt : (((storeArr st false currentFile).drop p).take seqLen)[t] =
          (storeArr st false currentFile)[p + t] := by
        rw [List.getElem_take _, List.getElem_drop _]
      have hAw : ((((storeArr st false currentFile).drop p).take
          seqLen)[t]).length = 40 := by
        rw [hAt]
        exact hwid _ (List.getElem_mem hpt)
      have hNw : (noiseR[t]).length = 40 := hwn _ (List.getElem_mem htN)
      have hjrow : j < (List.zipWith (· + ·)
          ((((storeArr st false currentFile).drop p).take seqLen)[t])
          (noiseR[t])).length := by
        rw [List.length_zipWith, hAw, hNw, min_self]
        exact hj40
      have hjmap : j < ((List.zipWith (· + ·)
          ((((storeArr st false currentFile).drop p).take seqLen)[t])
          (noiseR[t])).map (fun x => max 0 x)).length := by
        rw [List.length_map]
        exact hjrow
      have hx0 := hz1 _ (List.getElem_mem hjmap)
      simp only [List.getElem_map, List.getElem_zipWith] at hx0
      have hjA : j < ((((storeArr st false currentFile).drop p).take
          seqLen)[t]).length := by omega
      have hjN : j < (noiseR[t]).length := by omega
      have hgetA : ((((storeArr st false currentFile).drop p).take
          seqLen)[t]).getD j 0 =
          (((storeArr st false currentFile).drop p).take seqLen)[t][j] :=
        List.getD_eq_getElem _ _ hjA
      have hgetN : (noiseR[t]).getD j 0 = noiseR[t][j] :=
        List.getD_eq_getElem _ _ hjN
      have hgetNRow : noiseR.getD t [] = noiseR[t] :=
        List.getD_eq_getElem _ _ htN
      have hgetRow : (((storeArr st false currentFile).drop p).take
          seqLen).getD t [] =
          (((storeArr st false currentFile).drop p).take seqLen)[t] :=
        List.getD_eq_getElem _ _ htA
      rw [hgetRow, hgetNRow, hgetA, hgetN] at hpos
      have hlt : (0 : ℚ) <
          max 0 ((((storeArr st false currentFile).drop p).take
            seqLen)[t][j] + noiseR[t][j]) :=
        lt_max_of_lt_right hpos
      rw [hx0] at hlt
      exact lt_irrefl 0 hlt
    · intro heq
      subst heq
      refine ⟨?_, ?_⟩
      · intro x hx
        rw [hM] at hx
        exact mem_set_replicate_getD _ _ _ _ hx
      · intro x hx
        rw [hT] at hx
        exact mem_set_replicate_getD _ _ _ _ hx

/-- Claim C8, witness: a window of two timesteps over all-ones records with
zero noise and zeroed index 0 has its chosen timestep zeroed, unmodified
targets, and exactly one zero timestep. -/
theorem C8_augmentation_witness :
    ((extract_samples
        ⟨[[List.replicate 40 1, List.replicate 40 1, List.replicate 40 1]],
         [[[1], [1], [1]]]⟩ 0 0 2
        [List.replicate 40 0, List.replicate 40 0] [[0], [0]] 0).2.2.2.1 =
      ((storeArr
        ⟨[[List.replicate 40 1, List.replicate 40 1, List.replicate 40 1]],
         [[[1], [1], [1]]]⟩ false 0).drop (0 + 1)).take 2 ∧
     (extract_samples
        ⟨[[List.replicate 40 1, List.replicate 40 1, List.replicate 40 1]],
         [[[1], [1], [1]]]⟩ 0 0 2
        [List.replicate 40 0, List.replicate 40 0] [[0], [0]] 0).2.2.2.2 =
      ((storeArr
        ⟨[[List.replicate 40 1, List.replicate 40 1, List.replicate 40 1]],
         [[[1], [1], [1]]]⟩ true 0).drop (0 + 1)).take 2) ∧
    ∀ t, t < 2 →
      (zeroTimestep
        (extract_samples
          ⟨[[List.replicate 40 1, List.replicate 40 1, List.replicate 40 1]],
           [[[1], [1], [1]]]⟩ 0 0 2
          [List.replicate 40 0, List.replicate 40 0] [[0], [0]] 0).2.1
        (extract_samples
          ⟨[[List.replicate 40 1, List.replicate 40 1, List.replicate 40 1]],
           [[[1], [1], [1]]]⟩ 0 0 2
          [List.replicate 40 0, List.replicate 40 0] [[0], [0]] 0).2.2.1 t ↔
        t = 0) := by
  refine C8_augmentation _ 0 0 2 _ _ 0 (by norm_num) (by decide) (by decide)
    (by decide) (by decide) ?_
  intro t ht hne
  refine ⟨0, by norm_num, ?_⟩
  interval_cases t
  · exact absurd rfl hne
  · show (0 : ℚ) < 1 + 0
    norm_num

end MidiRNN
